import Mathlib

/-!
# Wraith: scope rules, header parsing, result printing and deduplication

A shallow embedding of `wraith.go`.  Go strings are modelled as lists of
characters, the `results` channel as the list of strings pushed onto it (in
order), and the process-wide maps as association lists.  Library calls whose
result depends on the outside world (`http.Get`, `json.Marshal`, the
authority part of `url.Parse`, `Request.AbsoluteURL`) are parameters of the
functions that use them.
-/

namespace Wraith

/-- Go strings, as lists of characters. -/
abbrev Str := List Char

/-! ## The pieces of Go's `strings` package used by the program -/

/-- `strings.Contains(s, sub)`. -/
def strContains : Str → Str → Bool
  | [], sub => sub.isEmpty
  | c :: t, sub => sub.isPrefixOf (c :: t) || strContains t sub

/-- `strings.HasPrefix(s, p)`. -/
def hasPrefix (s p : Str) : Bool := p.isPrefixOf s

/-- `strings.HasSuffix(s, p)`. -/
def hasSuffix (s p : Str) : Bool := p.isSuffixOf s

/-- `unicode.IsSpace`: the Latin-1 white space characters and the other
code points with the Unicode White_Space property. -/
def isSpace (c : Char) : Bool :=
  let n := c.toNat
  n == 9 || n == 10 || n == 11 || n == 12 || n == 13 || n == 32 || n == 0x85 || n == 0xA0 ||
  n == 0x1680 || (0x2000 ≤ n && n ≤ 0x200a) || n == 0x2028 || n == 0x2029 || n == 0x202f ||
  n == 0x205f || n == 0x3000

/-- `strings.TrimSpace(s)`. -/
def trimSpace (s : Str) : Str :=
  ((s.dropWhile isSpace).reverse.dropWhile isSpace).reverse

/-- Prepends a character to the first segment of a segment list. -/
def consHead (c : Char) : List Str → List Str
  | [] => [[c]]
  | seg :: segs => (c :: seg) :: segs

/-- `strings.Split(s, ";;")`: the segments of `s` between successive
non-overlapping occurrences of the separator, found left to right. -/
def splitSemis : Str → List Str
  | [] => [[]]
  | [c] => [[c]]
  | c :: d :: t =>
    if c = ';' ∧ d = ';' then [] :: splitSemis t
    else consHead c (splitSemis (d :: t))

/-- `strings.SplitN(s, ":", 2)`: `[s]` when `s` has no colon, otherwise the
text before the first colon and the text after it. -/
def splitColon2 : Str → List Str
  | [] => [[]]
  | c :: t =>
    if c = ':' then [[], t]
    else match splitColon2 t with
      | [a] => [c :: a]
      | a :: rest => (c :: a) :: rest
      | [] => [[c]]

/-! ## Go maps with string keys -/

/-- A `map[string]string`, as an association list with distinct keys. -/
abbrev Headers := List (Str × Str)

/-- The assignment `m[k] = v`. -/
def Headers.set (m : Headers) (k v : Str) : Headers :=
  (k, v) :: m.filter (fun p => p.1 != k)

/-- The lookup `val, ok := m[k]`. -/
def Headers.get (m : Headers) (k : Str) : Option Str :=
  (m.find? (fun p => p.1 == k)).map Prod.snd

/-! ## parseHeaders -/

/-- How a call of `parseHeaders` ends: it returns an error, it returns nil
leaving the global `headers` variable at the given value (`none` is the nil
map), or it stops with a run-time panic. -/
inductive ParseResult
  | error
  | ok (headers : Option Headers)
  | indexOutOfRange
  deriving DecidableEq

/-- The loop of `parseHeaders` over the `;;`-separated segments: each segment
is cut at its first colon and `headers[trim parts[0]] = trim parts[1]` is
executed; `none` is the index-out-of-range panic of `parts[1]`. -/
def parseLoop : List Str → Headers → Option Headers
  | [], m => some m
  | header :: rest, m =>
    match splitColon2 header with
    | p0 :: p1 :: _ => parseLoop rest (m.set (trimSpace p0) (trimSpace p1))
    | _ => none

/-- `parseHeaders(rawHeaders)`, started with the global `headers` nil. -/
def parseHeaders (rawHeaders : Str) : ParseResult :=
  if rawHeaders ≠ [] then
    if !strContains rawHeaders [':'] then .error
    else
      match parseLoop (splitSemis rawHeaders) [] with
      | some m => .ok (some m)
      | none => .indexOutOfRange
  else .ok none

/-! ## printResult -/

/-- The `Result` struct. -/
structure Result where
  Source : Str
  URL : Str
  Where : Str
  deriving DecidableEq

/-- What the program reads of a `*colly.HTMLElement`: its attributes
(`e.Attr`), the `AbsoluteURL` method of the page request (the empty string
when the reference cannot be resolved) and the string form of the page
request's URL. -/
structure HTMLElement where
  attr : Str → Str
  absoluteURL : Str → Str
  requestURL : Str

/-- `printResult`: the strings it pushes onto `results`, in order.  `marshal`
is `json.Marshal` (`none` when it returns an error); `e = none` is a nil
element. -/
def printResult (link sourceName : Str) (showSource showWhere showJson : Bool)
    (marshal : Result → Option Str) (e : Option HTMLElement) : List Str :=
  match e with
  | some e =>
    let result := e.absoluteURL link
    let whereURL := e.requestURL
    if result ≠ [] then
      if showJson then
        match marshal { Source := sourceName, URL := result, Where := whereURL } with
        | some jsonStr => [jsonStr]
        | none => []
      else
        let out := result
        let out := if showSource then out ++ " [source: ".toList ++ sourceName ++ "]".toList else out
        let out := if showWhere then out ++ " [from: ".toList ++ whereURL ++ "]".toList else out
        [out]
    else []
  | none => []

/-! ## Reading the header map as the specification words it -/

/-- The header name of a segment: the trimmed text before its first colon. -/
def headerName (seg : Str) : Str := trimSpace (seg.takeWhile (fun c => c != ':'))

/-- The header value of a segment: the trimmed text after its first colon. -/
def headerValue (seg : Str) : Str := trimSpace ((seg.dropWhile (fun c => c != ':')).tail)


/-! ## Regular expressions

The fragment of Go's `regexp` syntax that the scope filter is written in, with
matching by derivatives.  `Regexp.Match` only reports whether some substring
matches, so the set of strings a pattern denotes decides it. -/

/-- Regular expressions: the empty set, the empty string, a literal
character, `.` (any character but a newline), concatenation, alternation and
the star. -/
inductive Re
  | empty
  | eps
  | lit (c : Char)
  | dot
  | cat (a b : Re)
  | alt (a b : Re)
  | star (a : Re)
  deriving DecidableEq

/-- The pattern `(r)?`. -/
def Re.opt (r : Re) : Re := Re.alt r Re.eps

/-- The concatenation of the literal characters of `s`. -/
def Re.lits : Str → Re
  | [] => Re.eps
  | c :: t => Re.cat (Re.lit c) (Re.lits t)

/-- Whether the pattern matches the empty string. -/
def Re.nullable : Re → Bool
  | .empty => false
  | .eps => true
  | .lit _ => false
  | .dot => false
  | .cat a b => a.nullable && b.nullable
  | .alt a b => a.nullable || b.nullable
  | .star _ => true

/-- The derivative of a pattern by a character: what is left to match after
reading `c`. -/
def Re.deriv : Re → Char → Re
  | .empty, _ => .empty
  | .eps, _ => .empty
  | .lit d, c => if d = c then .eps else .empty
  | .dot, c => if c = '\n' then .empty else .eps
  | .cat a b, c =>
    if a.nullable then .alt (.cat (a.deriv c) b) (b.deriv c) else .cat (a.deriv c) b
  | .alt a b, c => .alt (a.deriv c) (b.deriv c)
  | .star a, c => .cat (a.deriv c) (.star a)

/-- Whether the pattern matches the whole of `s`. -/
def Re.matchAll : Re → Str → Bool
  | r, [] => r.nullable
  | r, c :: t => (r.deriv c).matchAll t

/-- Whether the pattern matches a prefix of `s`. -/
def Re.matchPrefix : Re → Str → Bool
  | r, [] => r.nullable
  | r, c :: t => r.nullable || (r.deriv c).matchPrefix t

/-- `re.Match(s)`: whether the pattern matches some substring of `s` (a Go
regular expression is not anchored). -/
def Re.isMatch (r : Re) : Str → Bool
  | [] => r.nullable
  | c :: t => r.matchPrefix (c :: t) || r.isMatch t

/-- The strings a pattern denotes. -/
inductive Re.Matches : Re → Str → Prop
  | eps : Re.Matches Re.eps []
  | lit (c : Char) : Re.Matches (Re.lit c) [c]
  | dot (c : Char) (h : c ≠ '\n') : Re.Matches Re.dot [c]
  | cat {a b : Re} {s t : Str} : Re.Matches a s → Re.Matches b t → Re.Matches (Re.cat a b) (s ++ t)
  | altL {a b : Re} {s : Str} : Re.Matches a s → Re.Matches (Re.alt a b) s
  | altR {a b : Re} {s : Str} : Re.Matches b s → Re.Matches (Re.alt a b) s
  | starNil {a : Re} : Re.Matches (Re.star a) []
  | starCons {a : Re} {s t : Str} :
      Re.Matches a s → Re.Matches (Re.star a) t → Re.Matches (Re.star a) (s ++ t)

/-- The characters with a special meaning in Go's regexp syntax. -/
def isRegexpMeta (c : Char) : Bool :=
  c == '\\' || c == '.' || c == '+' || c == '*' || c == '?' || c == '(' || c == ')' ||
  c == '|' || c == '[' || c == ']' || c == Char.ofNat 123 || c == Char.ofNat 125 ||
  c == '^' || c == '$'

/-- The pattern that `strings.ReplaceAll(hostname, ".", "\\.")` denotes once
compiled: every dot of the host name has become the escaped, literal dot, and
a character without a special meaning stands for itself.  The result is
`none` when the host name has a special character other than the dot: there
`regexp.MustCompile` panics or compiles a pattern outside this fragment. -/
def quotedHost (hostname : Str) : Option Re :=
  if hostname.all (fun c => c = '.' || !isRegexpMeta c) then some (Re.lits hostname) else none

/-- The URL filter of subdomain mode: the pattern
`.*(\.|\/\/)` + quoted host name + `((#|\/|\?).*)?`. -/
def subsFilter (hostname : Str) : Option Re :=
  (quotedHost hostname).map fun host =>
    Re.cat (Re.star Re.dot)
      (Re.cat (Re.alt (Re.lit '.') (Re.cat (Re.lit '/') (Re.lit '/')))
        (Re.cat host
          (Re.opt (Re.cat (Re.alt (Re.lit '#') (Re.alt (Re.lit '/') (Re.lit '?')))
            (Re.star Re.dot)))))

/-! ## URLs of candidate requests -/

/-- A parsed `url.URL`, with the fields a hierarchical URL uses: `User` is
the user information in its string form (`none` when nil), and `Host`, `Path`
and `Fragment` are held in their escaped form.  `Opaque` is empty and
`OmitHost` and `ForceQuery` are false. -/
structure URL where
  Scheme : Str
  User : Option Str
  Host : Str
  Path : Str
  RawQuery : Str
  Fragment : Str
  deriving DecidableEq

/-- The host part of `splitHostPort(hostPort)`: a valid port after the last
colon is cut off, then the square brackets of an IP literal are removed. -/
def splitHost (hostPort : Str) : Str :=
  let port := (hostPort.reverse.takeWhile (fun c => c != ':')).reverse
  let host :=
    if ':' ∈ hostPort ∧ port.all Char.isDigit then
      hostPort.take (hostPort.length - (port.length + 1))
    else hostPort
  if hasPrefix host ['['] && hasSuffix host [']'] then (host.drop 1).dropLast else host

/-- `u.Hostname()`. -/
def URL.Hostname (u : URL) : Str := splitHost u.Host

/-- `u.String()`. -/
def URL.String (u : URL) : Str :=
  let buf : Str := if u.Scheme ≠ [] then u.Scheme ++ [':'] else []
  let buf : Str :=
    if u.Scheme ≠ [] ∨ u.Host ≠ [] ∨ u.User ≠ none then
      let buf := if u.Host ≠ [] ∨ u.Path ≠ [] ∨ u.User ≠ none then buf ++ ['/', '/'] else buf
      let buf := match u.User with
        | some ui => buf ++ ui ++ ['@']
        | none => buf
      buf ++ u.Host
    else buf
  let buf : Str :=
    if u.Path ≠ [] ∧ u.Path.head? ≠ some '/' ∧ u.Host ≠ [] then buf ++ ['/'] else buf
  let buf : Str :=
    if buf = [] ∧ ':' ∈ u.Path.takeWhile (fun c => c != '/') then buf ++ ['.', '/'] else buf
  let buf := buf ++ u.Path
  let buf := if u.RawQuery ≠ [] then buf ++ ['?'] ++ u.RawQuery else buf
  let buf := if u.Fragment ≠ [] then buf ++ ['#'] ++ u.Fragment else buf
  buf

/-! ## The scope of a crawl session -/

/-- The two scope fields of a `colly.Collector` that the program sets.
`AllowedDomains = none` is the nil slice.  The disallow lists are never set
and stay empty. -/
structure Collector where
  AllowedDomains : Option (List Str)
  URLFilters : List Re
  deriving DecidableEq

/-- `c.isDomainAllowed(domain)` of colly, with no disallowed domain. -/
def Collector.isDomainAllowed (c : Collector) (domain : Str) : Bool :=
  match c.AllowedDomains with
  | none => true
  | some ds => if ds.length = 0 then true else ds.any (fun d2 => d2 == domain)

/-- `isMatchingFilter(fs, d)` of colly: some filter matches. -/
def isMatchingFilter (fs : List Re) (d : Str) : Bool := fs.any (fun r => r.isMatch d)

/-- `c.checkFilters(URL, domain)` of colly, with no disallowed URL filter:
`true` when it returns no error. -/
def Collector.checkFilters (c : Collector) (url domain : Str) : Bool :=
  if 0 < c.URLFilters.length ∧ !isMatchingFilter c.URLFilters url then false
  else c.isDomainAllowed domain

/-- The filter check colly runs on a candidate request: `checkFilters` on
the string form of the parsed URL and on its host name. -/
def Collector.allows (c : Collector) (u : URL) : Bool :=
  c.checkFilters u.String u.Hostname

/-- The `allowedDomains` slice that `main` builds for a seed. -/
def allowedDomains (hostname : Str) (headers : Option Headers) : List Str :=
  let allowed := [hostname]
  match headers with
  | some m =>
    match m.get "Host".toList with
    | some val => allowed ++ [val]
    | none => allowed
  | none => allowed

/-- The scope configuration of the collector that `main` creates for a seed:
the allow-list, replaced by the URL filter when `-subs` is given.  `none`
when the filter pattern is outside the modelled regexp fragment. -/
def sessionCollector (subsInScope : Bool) (hostname : Str) (headers : Option Headers) :
    Option Collector :=
  let c : Collector := { AllowedDomains := some (allowedDomains hostname headers), URLFilters := [] }
  if subsInScope then
    (subsFilter hostname).map fun re => { c with AllowedDomains := none, URLFilters := [re] }
  else some c

/-! ## The callbacks of a crawl session -/

/-- What a callback does: the strings it pushes onto `results` and the links
it hands to `Request.Visit`, each in order. -/
structure Effects where
  pushed : List Str
  visited : List Str
  deriving DecidableEq

/-- The `a[href]` callback, for the seed line `urlText`. -/
def onAnchor (inside showSource showWhere showJson : Bool) (urlText : Str)
    (marshal : Result → Option Str) (e : HTMLElement) : Effects :=
  let link := e.attr "href".toList
  let absLink := e.absoluteURL link
  if strContains absLink urlText || !inside then
    { pushed := printResult link "href".toList showSource showWhere showJson marshal (some e),
      visited := [link] }
  else { pushed := [], visited := [] }

/-- The characters of the class `[^\s'"<>]`. -/
def isURLChar (c : Char) : Bool :=
  !(c == '\t' || c == '\n' || c == Char.ofNat 12 || c == '\r' || c == ' ' ||
    c == Char.ofNat 39 || c == Char.ofNat 34 || c == '<' || c == '>')

/-- The match of the pattern `https?:\/\/[^\s'"<>]+` that starts at the
beginning of `s`, if there is one. -/
def matchURLAt (s : Str) : Option Str :=
  let run (scheme : Str) : Option Str :=
    let tail := (s.drop scheme.length).takeWhile isURLChar
    if tail = [] then none else some (scheme ++ tail)
  if hasPrefix s "https://".toList then run "https://".toList
  else if hasPrefix s "http://".toList then run "http://".toList
  else none

/-- The scan of `re.FindAllString(s, -1)`: `skip` characters of a match
found earlier are still to be passed over. -/
def findAllFrom : Nat → Str → List Str
  | _, [] => []
  | skip + 1, _ :: t => findAllFrom skip t
  | 0, c :: t =>
    match matchURLAt (c :: t) with
    | some m => m :: findAllFrom (m.length - 1) t
    | none => findAllFrom 0 t

/-- `re.FindAllString(jsContent, -1)` for the URL pattern of the response
callback: the successive non-overlapping matches, leftmost first. -/
def findAllURLs (jsContent : Str) : List Str := findAllFrom 0 jsContent

/-- What the response callback reads of a `*colly.Response`: the path, the
string form and the host name of the request URL, the body, and the
`AbsoluteURL` method of the request. -/
structure Response where
  path : Str
  url : Str
  hostname : Str
  body : Str
  absoluteURL : Str → Str

/-- The loop of the response callback over the links found in the body. -/
def jsLinksLoop (showSource showWhere showJson : Bool) (marshal : Result → Option Str)
    (r : Response) : List Str → List Str
  | [] => []
  | link :: rest =>
    let absLink := r.absoluteURL link
    (if strContains absLink r.hostname then
      printResult absLink "js".toList showSource showWhere showJson marshal none
    else []) ++ jsLinksLoop showSource showWhere showJson marshal r rest

/-- The `OnResponse` callback: the strings it pushes onto `results`. -/
def onResponse (crawlJS showSource showWhere showJson : Bool) (marshal : Result → Option Str)
    (r : Response) : List Str :=
  if crawlJS && hasSuffix r.path ".js".toList then
    let foundLinks := findAllURLs r.body
    jsLinksLoop showSource showWhere showJson marshal r foundLinks ++
      printResult r.url "js-file".toList showSource showWhere showJson marshal none
  else []

/-! ## Seeds -/

/-- `getScheme(rawURL)` of `net/url`: the scheme and the rest of the URL;
the scheme is empty when the text up to the first colon is not a scheme, and
`none` is the error for a URL that starts with a colon. -/
def getSchemeFrom (rawURL : Str) : Str → Str → Option (Str × Str)
  | _, [] => some ([], rawURL)
  | seen, c :: t =>
    if c.isAlpha then getSchemeFrom rawURL (seen ++ [c]) t
    else if c.isDigit || c == '+' || c == '-' || c == '.' then
      if seen = [] then some ([], rawURL) else getSchemeFrom rawURL (seen ++ [c]) t
    else if c == ':' then
      if seen = [] then none else some (seen, t)
    else some ([], rawURL)

/-- `getScheme(rawURL)`. -/
def getScheme (rawURL : Str) : Option (Str × Str) := getSchemeFrom rawURL [] rawURL

/-- The ASCII control bytes that `url.Parse` refuses. -/
def isCTL (c : Char) : Bool := c.toNat < 32 || c.toNat == 127

/-- `extractHostname(urlString)`: `none` when it returns an error.  The part
of `url.Parse` up to the scheme is followed step by step; what it does with
the rest of a URL that has a scheme (query, authority, path and fragment, and
then `Hostname()`) is the parameter `parseRest`, given the scheme, the rest
and the fragment, `none` when parsing fails. -/
def extractHostname (parseRest : Str → Str → Str → Option Str) (urlString : Str) :
    Option Str :=
  let u := urlString.takeWhile (fun c => c != '#')
  let frag := (urlString.dropWhile (fun c => c != '#')).tail
  if u.any isCTL then none
  else if u = ['*'] then none
  else
    match getScheme u with
    | none => none
    | some (scheme, rest) =>
      if scheme = [] then none else parseRest scheme rest frag

/-- `addSchemeIfMissing(rawURL)`: the URLs probed with `http.Get`, in order,
and the URL returned (`none` for the error).  `get` tells whether `http.Get`
of a URL succeeds. -/
def addSchemeIfMissing (get : Str → Bool) (rawURL : Str) : List Str × Option Str :=
  if hasPrefix rawURL "http://".toList || hasPrefix rawURL "https://".toList then
    ([], some rawURL)
  else
    let testURL := "http://".toList ++ rawURL
    if get testURL then ([testURL], some testURL)
    else
      let testURL2 := "https://".toList ++ rawURL
      if get testURL2 then ([testURL, testURL2], some testURL2)
      else ([testURL, testURL2], none)

/-- How the seed loop leaves one input line: skipped because
`extractHostname` failed, skipped because `addSchemeIfMissing` failed, or
crawled from `finalURL` with the scope of `hostname`. -/
inductive SeedOutcome
  | parseError
  | invalidURL
  | crawl (hostname finalURL : Str)
  deriving DecidableEq

/-- One turn of the seed loop of `main` (without `-wayback`): the URLs probed
and the outcome. -/
def processSeed (parseRest : Str → Str → Str → Option Str) (get : Str → Bool) (urlText : Str) :
    List Str × SeedOutcome :=
  match extractHostname parseRest urlText with
  | none => ([], SeedOutcome.parseError)
  | some hostname =>
    match addSchemeIfMissing get urlText with
    | (probes, none) => (probes, SeedOutcome.invalidURL)
    | (probes, some finalURL) => (probes, SeedOutcome.crawl hostname finalURL)

/-! ## The deduplicator and the consumer -/

/-- The `sync.Map` named `sm`: keys with the value stored for each. -/
abbrev SyncMap := List (Str × Bool)

/-- `sm.LoadOrStore(key, value)`: the value now in the map, whether it was
there already, and the map afterwards. -/
def SyncMap.loadOrStore (sm : SyncMap) (key : Str) (value : Bool) : (Bool × Bool) × SyncMap :=
  match sm.find? (fun p => p.1 == key) with
  | some p => ((p.2, true), sm)
  | none => ((value, false), sm ++ [(key, value)])

/-- `isUnique(link)`: the result and the map afterwards. -/
def isUnique (sm : SyncMap) (link : Str) : Bool × SyncMap :=
  let r := sm.loadOrStore link true
  (!r.1.2, r.2)

/-- The results of successive calls of `isUnique`, from the map `sm` on. -/
def isUniqueCalls : SyncMap → List Str → List Bool
  | _, [] => []
  | sm, link :: rest => (isUnique sm link).1 :: isUniqueCalls (isUnique sm link).2 rest

/-- The loop `for res := range results` of the `-u` branch: the lines
written, from the map `sm` on. -/
def uniqueLoop : SyncMap → List Str → List Str
  | _, [] => []
  | sm, res :: rest =>
    if (isUnique sm res).1 then res :: uniqueLoop (isUnique sm res).2 rest
    else uniqueLoop (isUnique sm res).2 rest

/-- The consumer at the end of `main`, given everything that is sent on
`results` before it is closed: the lines written to standard output.  The
second loop reads what the first has left on the channel. -/
def consumer (unique : Bool) (results : List Str) : List Str :=
  let first := if unique then uniqueLoop [] results else []
  let left := if unique then [] else results
  first ++ left

/-! ## Concrete inputs used in the evaluations below -/

/-- An anchor to `http://example.com/other` on the page
`http://example.com/blog`; the reference is absolute already, so resolving
it leaves it as it is. -/
def otherAnchor : HTMLElement where
  attr := fun name => if name = "href".toList then "http://example.com/other".toList else []
  absoluteURL := fun link => link
  requestURL := "http://example.com/blog".toList

/-- The response for `http://example.com/app.js`, whose body names one URL on
the same host. -/
def appJsResponse : Response where
  path := "/app.js".toList
  url := "http://example.com/app.js".toList
  hostname := "example.com".toList
  body := "var api = http://example.com/api ;".toList
  absoluteURL := fun link => link

/-- The candidate URL `http://evil.com/?next=//example.com`. -/
def redirectorURL : URL where
  Scheme := "http".toList
  User := none
  Host := "evil.com".toList
  Path := "/".toList
  RawQuery := "next=//example.com".toList
  Fragment := []

/-- The candidate URL `http://` + host + `/`. -/
def rootURL (host : Str) : URL where
  Scheme := "http".toList
  User := none
  Host := host
  Path := "/".toList
  RawQuery := []
  Fragment := []
/-! ## Lemmas on the string functions and on parseHeaders -/

theorem strContains_iff (s sub : Str) : strContains s sub = true ↔ sub <:+: s := by
  induction s with
  | nil => simp [strContains, List.isEmpty_iff]
  | cons c t ih =>
    simp only [strContains, Bool.or_eq_true, ih, List.isPrefixOf_iff_prefix]
    rw [List.infix_cons_iff]

theorem strContains_singleton (s : Str) (c : Char) : strContains s [c] = true ↔ c ∈ s := by
  rw [strContains_iff]
  constructor
  · rintro ⟨a, b, rfl⟩; simp
  · intro h
    obtain ⟨a, b, rfl⟩ := List.mem_iff_append.1 h
    exact ⟨a, b, by simp⟩

theorem splitColon2_of_mem (s : Str) (h : ':' ∈ s) :
    splitColon2 s = [s.takeWhile (fun c => c != ':'), (s.dropWhile (fun c => c != ':')).tail] := by
  induction s with
  | nil => simp at h
  | cons c t ih =>
    by_cases hc : c = ':'
    · simp [splitColon2, hc]
    · have ht : ':' ∈ t := by
        rcases List.mem_cons.1 h with h | h
        · exact absurd h.symm hc
        · exact h
      simp [splitColon2, hc, ih ht]

theorem splitColon2_of_not_mem (s : Str) (h : ':' ∉ s) : splitColon2 s = [s] := by
  induction s with
  | nil => simp [splitColon2]
  | cons c t ih =>
    have hc : c ≠ ':' := fun e => h (by simp [e])
    have ht : ':' ∉ t := fun e => h (List.mem_cons_of_mem _ e)
    simp [splitColon2, hc, ih ht]

theorem parseLoop_of_colons (segs : List Str) (m : Headers) (h : ∀ seg ∈ segs, ':' ∈ seg) :
    parseLoop segs m = some (segs.foldl (fun m seg => m.set (headerName seg) (headerValue seg)) m) := by
  induction segs generalizing m with
  | nil => simp [parseLoop]
  | cons seg rest ih =>
    have h1 := splitColon2_of_mem seg (h seg (List.mem_cons_self _ _))
    simp only [parseLoop, h1, List.foldl_cons]
    exact ih _ (fun s hs => h s (List.mem_cons_of_mem _ hs))

theorem parseLoop_of_missing (segs : List Str) (m : Headers) (h : ∃ seg ∈ segs, ':' ∉ seg) :
    parseLoop segs m = none := by
  induction segs generalizing m with
  | nil => simp at h
  | cons seg rest ih =>
    by_cases hs : ':' ∈ seg
    · have h1 := splitColon2_of_mem seg hs
      simp only [parseLoop, h1]
      apply ih
      obtain ⟨s, hs1, hs2⟩ := h
      rcases List.mem_cons.1 hs1 with e | e
      · exact absurd (e ▸ hs) hs2
      · exact ⟨s, e, hs2⟩
    · simp [parseLoop, splitColon2_of_not_mem seg hs]

theorem Headers.get_set (m : Headers) (k v k' : Str) :
    (m.set k v).get k' = if k = k' then some v else m.get k' := by
  unfold Headers.set Headers.get
  by_cases hk : k = k'
  · simp [hk]
  · simp only [hk, if_false]
    rw [List.find?_cons_of_neg]
    · congr 1
      induction m with
      | nil => rfl
      | cons p t ih =>
        by_cases hp : p.1 = k
        · have : ¬ p.1 = k' := fun e => hk (hp.symm.trans e)
          simp [List.filter_cons, hp, List.find?_cons, this, ih, hk]
        · by_cases hp' : p.1 = k'
          · have hk' : ¬ k' = k := fun e => hk e.symm
            simp [List.filter_cons, hp, List.find?_cons, hp', hk']
          · simp [List.filter_cons, hp, List.find?_cons, hp', ih]
    · simpa using hk

theorem get_foldl_set (segs : List Str) (m : Headers) (k : Str) :
    (segs.foldl (fun m seg => m.set (headerName seg) (headerValue seg)) m).get k =
      match segs.reverse.find? (fun seg => headerName seg == k) with
      | some seg => some (headerValue seg)
      | none => m.get k := by
  induction segs generalizing m with
  | nil => simp
  | cons seg rest ih =>
    rw [List.foldl_cons, ih, List.reverse_cons, List.find?_append]
    cases hf : rest.reverse.find? (fun seg => headerName seg == k) with
    | some s => simp
    | none =>
      by_cases hk : headerName seg = k
      · simp [Headers.get_set, hk]
      · simp [Headers.get_set, hk]

theorem mem_of_mem_splitSemis (s : Str) : ∀ seg ∈ splitSemis s, ∀ c ∈ seg, c ∈ s := by
  induction s using splitSemis.induct with
  | case1 => simp [splitSemis]
  | case2 c => simp [splitSemis]
  | case3 c d t h ih =>
    intro seg hseg x hx
    simp only [splitSemis, h, and_self, if_true, List.mem_cons] at hseg
    rcases hseg with e | e
    · subst e; simp at hx
    · have := ih seg e x hx
      simp [this]
  | case4 c d t h ih =>
    intro seg hseg x hx
    simp only [splitSemis, h, if_false] at hseg
    cases hs : splitSemis (d :: t) with
    | nil => 
      rw [hs] at hseg; simp [consHead] at hseg; subst hseg; simp at hx; simp [hx]
    | cons a rest =>
      rw [hs] at hseg ih
      simp only [consHead, List.mem_cons] at hseg
      rcases hseg with e | e
      · subst e
        rcases List.mem_cons.1 hx with e' | e'
        · simp [e']
        · exact List.mem_cons_of_mem _ (ih a (List.mem_cons_self _ _) x e')
      · exact List.mem_cons_of_mem _ (ih seg (List.mem_cons_of_mem _ e) x hx)

theorem splitSemis_ne_nil (s : Str) : splitSemis s ≠ [] := by
  induction s using splitSemis.induct with
  | case1 => simp [splitSemis]
  | case2 c => simp [splitSemis]
  | case3 c d t h ih => simp [splitSemis, h]
  | case4 c d t h ih =>
    simp only [splitSemis, h, if_false]
    cases hs : splitSemis (d :: t) <;> simp [consHead]


theorem parseHeaders_error_iff (rawHeaders : Str) :
    parseHeaders rawHeaders = .error ↔ rawHeaders ≠ [] ∧ ':' ∉ rawHeaders := by
  unfold parseHeaders
  by_cases hne : rawHeaders = []
  · simp [hne]
  · by_cases hc : ':' ∈ rawHeaders
    · have h1 := (strContains_singleton rawHeaders ':').2 hc
      simp only [ne_eq, hne, not_false_eq_true, if_true, h1, Bool.not_true, hc, not_true, and_false,
        iff_false]
      cases parseLoop (splitSemis rawHeaders) [] <;> simp
    · have h1 : strContains rawHeaders [':'] = false := by
        cases h : strContains rawHeaders [':'] with
        | false => rfl
        | true => exact absurd ((strContains_singleton rawHeaders ':').1 h) hc
      simp [hne, h1, hc]

theorem parseHeaders_panic_iff (rawHeaders : Str) :
    parseHeaders rawHeaders = .indexOutOfRange ↔
      ':' ∈ rawHeaders ∧ ∃ seg ∈ splitSemis rawHeaders, ':' ∉ seg := by
  unfold parseHeaders
  by_cases hne : rawHeaders = []
  · simp [hne]
  · by_cases hc : ':' ∈ rawHeaders
    · have h1 := (strContains_singleton rawHeaders ':').2 hc
      simp only [ne_eq, hne, not_false_eq_true, if_true, h1, Bool.not_true, hc, true_and]
      by_cases hall : ∀ seg ∈ splitSemis rawHeaders, ':' ∈ seg
      · rw [parseLoop_of_colons _ _ hall]
        simpa using hall
      · have hex : ∃ seg ∈ splitSemis rawHeaders, ':' ∉ seg := by
          by_contra hcon
          exact hall (fun seg hs => by_contra (fun hn => hcon ⟨seg, hs, hn⟩))
        rw [parseLoop_of_missing _ _ hex]
        simpa using hex
    · have h1 : strContains rawHeaders [':'] = false := by
        cases h : strContains rawHeaders [':'] with
        | false => rfl
        | true => exact absurd ((strContains_singleton rawHeaders ':').1 h) hc
      simp [hne, h1, hc]

/-! ## Lemmas on the deduplicator -/

theorem isUnique_fst (sm : SyncMap) (link : Str) :
    (isUnique sm link).1 = decide (link ∉ sm.map Prod.fst) := by
  unfold isUnique SyncMap.loadOrStore
  cases h : sm.find? (fun p => p.1 == link) with
  | some p =>
    have h1 := List.find?_some h
    have h2 := List.mem_of_find?_eq_some h
    have : link ∈ sm.map Prod.fst := by
      refine List.mem_map.2 ⟨p, h2, ?_⟩
      simpa using h1
    simp [this]
  | none =>
    have : link ∉ sm.map Prod.fst := by
      intro hm
      obtain ⟨p, hp, hpl⟩ := List.mem_map.1 hm
      have := List.find?_eq_none.1 h p hp
      simp [hpl] at this
    simp [this]

theorem isUnique_keys (sm : SyncMap) (link x : Str) :
    x ∈ (isUnique sm link).2.map Prod.fst ↔ x ∈ sm.map Prod.fst ∨ x = link := by
  unfold isUnique SyncMap.loadOrStore
  cases h : sm.find? (fun p => p.1 == link) with
  | some p =>
    have h1 := List.find?_some h
    have h2 := List.mem_of_find?_eq_some h
    have hl : link ∈ sm.map Prod.fst := by
      refine List.mem_map.2 ⟨p, h2, ?_⟩
      simpa using h1
    constructor
    · intro hx; exact Or.inl hx
    · rintro (hx | hx)
      · exact hx
      · subst hx; exact hl
  | none => simp

theorem isUniqueCalls_get (sm : SyncMap) (calls : List Str) (i : Nat) (x : Str)
    (h : calls[i]? = some x) :
    (isUniqueCalls sm calls)[i]? =
      some (decide (x ∉ sm.map Prod.fst ∧ x ∉ calls.take i)) := by
  induction calls generalizing sm i with
  | nil => simp at h
  | cons c rest ih =>
    cases i with
    | zero =>
      simp only [List.getElem?_cons_zero, Option.some.injEq] at h
      subst h
      simp [isUniqueCalls, isUnique_fst]
    | succ i =>
      simp only [List.getElem?_cons_succ] at h
      simp only [isUniqueCalls, List.getElem?_cons_succ, ih _ i h, Option.some.injEq,
        List.take_succ_cons, List.mem_cons]
      apply decide_eq_decide.2
      rw [isUnique_keys]
      tauto

theorem mem_uniqueLoop (sm : SyncMap) (rs : List Str) (x : Str) :
    x ∈ uniqueLoop sm rs ↔ x ∈ rs ∧ x ∉ sm.map Prod.fst := by
  induction rs generalizing sm with
  | nil => simp [uniqueLoop]
  | cons r rest ih =>
    by_cases hr : r ∈ sm.map Prod.fst
    · have hf : (isUnique sm r).1 = false := by simp [isUnique_fst, hr]
      simp only [uniqueLoop, hf, Bool.false_eq_true, if_false, ih, isUnique_keys, List.mem_cons]
      constructor
      · rintro ⟨h1, h2⟩; exact ⟨Or.inr h1, fun h => h2 (Or.inl h)⟩
      · rintro ⟨h1 | h1, h2⟩
        · exact absurd (h1 ▸ hr) h2
        · refine ⟨h1, ?_⟩
          rintro (h | h)
          · exact h2 h
          · exact h2 (h ▸ hr)
    · have hf : (isUnique sm r).1 = true := by simp [isUnique_fst, hr]
      simp only [uniqueLoop, hf, if_true, List.mem_cons, ih, isUnique_keys]
      constructor
      · rintro (h | ⟨h1, h2⟩)
        · exact ⟨Or.inl h, h ▸ hr⟩
        · exact ⟨Or.inr h1, fun h => h2 (Or.inl h)⟩
      · rintro ⟨h1 | h1, h2⟩
        · exact Or.inl h1
        · by_cases hx : x = r
          · exact Or.inl hx
          · refine Or.inr ⟨h1, ?_⟩
            rintro (h | h)
            · exact h2 h
            · exact hx h

theorem nodup_uniqueLoop (sm : SyncMap) (rs : List Str) : (uniqueLoop sm rs).Nodup := by
  induction rs generalizing sm with
  | nil => simp [uniqueLoop]
  | cons r rest ih =>
    by_cases hf : (isUnique sm r).1 = true
    · simp only [uniqueLoop, hf, if_true, List.nodup_cons]
      refine ⟨?_, ih _⟩
      intro hm
      have := ((mem_uniqueLoop _ _ _).1 hm).2
      exact this ((isUnique_keys sm r r).2 (Or.inr rfl))
    · simp only [uniqueLoop, hf, if_false]
      exact ih _

theorem indexOf_cons_other (rest : List Str) (a r : Str) (h : a ≠ r) :
    (r :: rest).indexOf a = rest.indexOf a + 1 := by
  have hb : (r == a) = false := beq_false_of_ne (Ne.symm h)
  simp [List.indexOf, List.findIdx_cons, hb]

theorem indexOf_cons_same (rest : List Str) (r : Str) : (r :: rest).indexOf r = 0 := by
  simp [List.indexOf, List.findIdx_cons]

theorem order_uniqueLoop (sm : SyncMap) (rs : List Str) :
    (uniqueLoop sm rs).Pairwise (fun a b => rs.indexOf a < rs.indexOf b) := by
  induction rs generalizing sm with
  | nil => simp [uniqueLoop]
  | cons r rest ih =>
    have hne : ∀ x ∈ uniqueLoop (isUnique sm r).2 rest, x ≠ r := by
      intro x hx e
      exact ((mem_uniqueLoop _ _ _).1 hx).2 ((isUnique_keys sm r x).2 (Or.inr e))
    have htail : (uniqueLoop (isUnique sm r).2 rest).Pairwise
        (fun a b => (r :: rest).indexOf a < (r :: rest).indexOf b) := by
      refine List.Pairwise.imp_of_mem ?_ (ih (isUnique sm r).2)
      intro a b ha hb hab
      rw [indexOf_cons_other _ _ _ (hne a ha), indexOf_cons_other _ _ _ (hne b hb)]
      exact Nat.succ_lt_succ hab
    by_cases hf : (isUnique sm r).1 = true
    · simp only [uniqueLoop, hf, if_true, List.pairwise_cons]
      refine ⟨?_, htail⟩
      intro b hb
      rw [indexOf_cons_same, indexOf_cons_other _ _ _ (hne b hb)]
      exact Nat.succ_pos _
    · simp only [uniqueLoop, hf, if_false]
      exact htail

theorem count_isUniqueCalls (sm : SyncMap) (calls : List Str) (x : Str) :
    (calls.zip (isUniqueCalls sm calls)).count (x, true) =
      if x ∈ calls ∧ x ∉ sm.map Prod.fst then 1 else 0 := by
  induction calls generalizing sm with
  | nil => simp [isUniqueCalls]
  | cons c rest ih =>
    simp only [isUniqueCalls, List.zip_cons_cons, List.count_cons, ih, isUnique_keys,
      isUnique_fst, List.mem_cons]
    by_cases hc : c = x
    · subst hc
      by_cases hk : c ∈ sm.map Prod.fst <;> simp [hk]
    · have hc' : ¬ x = c := fun e => hc e.symm
      by_cases hk : x ∈ sm.map Prod.fst <;> by_cases hr : x ∈ rest <;> simp [hk, hr, hc, hc']

/-! ## Lemmas on the allow-list -/

theorem checkFilters_allowList (ds : List Str) (hne : ds ≠ []) (url d : Str) :
    ({ AllowedDomains := some ds, URLFilters := [] } : Collector).checkFilters url d = true ↔
      d ∈ ds := by
  have hl : ds.length ≠ 0 := fun h => hne (List.length_eq_zero.1 h)
  simp only [Collector.checkFilters, Collector.isDomainAllowed, List.length_nil, Nat.lt_irrefl,
    false_and, if_false, hl, List.any_eq_true, beq_iff_eq]
  constructor
  · rintro ⟨x, hx, rfl⟩; exact hx
  · intro h; exact ⟨d, h, rfl⟩

/-! ## Lemmas on the callbacks -/

theorem printResult_nil (link sourceName : Str) (showSource showWhere showJson : Bool)
    (marshal : Result → Option Str) :
    printResult link sourceName showSource showWhere showJson marshal none = [] := rfl

theorem jsLinksLoop_nil (showSource showWhere showJson : Bool) (marshal : Result → Option Str)
    (r : Response) (links : List Str) :
    jsLinksLoop showSource showWhere showJson marshal r links = [] := by
  induction links with
  | nil => rfl
  | cons link rest ih => simp [jsLinksLoop, printResult_nil, ih]

theorem onResponse_nil (crawlJS showSource showWhere showJson : Bool)
    (marshal : Result → Option Str) (r : Response) :
    onResponse crawlJS showSource showWhere showJson marshal r = [] := by
  unfold onResponse
  split
  · simp [jsLinksLoop_nil, printResult_nil]
  · rfl

theorem printResult_length (link sourceName : Str) (showSource showWhere showJson : Bool)
    (marshal : Result → Option Str) (e : HTMLElement)
    (hres : e.absoluteURL link ≠ []) (hm : ∀ r, marshal r ≠ none) :
    (printResult link sourceName showSource showWhere showJson marshal (some e)).length = 1 := by
  unfold printResult
  cases showJson with
  | false => simp [hres]
  | true =>
    simp only [ne_eq, hres, not_false_eq_true, if_true]
    cases h : marshal { Source := sourceName, URL := e.absoluteURL link, Where := e.requestURL } with
    | none => exact absurd h (hm _)
    | some j => rfl

/-! ## Lemmas on the seed loop -/

theorem processSeed_no_scheme (parseRest : Str → Str → Str → Option Str) (get : Str → Bool)
    (urlText rest : Str)
    (h : getScheme (urlText.takeWhile (fun c => c != '#')) = some ([], rest)) :
    processSeed parseRest get urlText = ([], SeedOutcome.parseError) := by
  have : extractHostname parseRest urlText = none := by
    unfold extractHostname
    simp only [h]
    split
    · rfl
    · split <;> rfl
  simp [processSeed, this]

theorem addSchemeIfMissing_probes (get : Str → Bool) (rawURL : Str)
    (h : (hasPrefix rawURL "http://".toList || hasPrefix rawURL "https://".toList) = false) :
    addSchemeIfMissing get rawURL =
      if get ("http://".toList ++ rawURL) then
        (["http://".toList ++ rawURL], some ("http://".toList ++ rawURL))
      else if get ("https://".toList ++ rawURL) then
        (["http://".toList ++ rawURL, "https://".toList ++ rawURL],
          some ("https://".toList ++ rawURL))
      else (["http://".toList ++ rawURL, "https://".toList ++ rawURL], none) := by
  unfold addSchemeIfMissing
  rw [h]
  simp

/-! ## Lemmas on regular expressions: matching by derivatives is matching -/

theorem Re.matches_empty (s : Str) : ¬ Re.Matches Re.empty s := by
  intro h; cases h

theorem Re.matches_eps (s : Str) : Re.Matches Re.eps s ↔ s = [] := by
  constructor
  · intro h; cases h; rfl
  · intro h; subst h; exact Re.Matches.eps

theorem Re.matches_lit (c : Char) (s : Str) : Re.Matches (Re.lit c) s ↔ s = [c] := by
  constructor
  · intro h; cases h; rfl
  · intro h; subst h; exact Re.Matches.lit c

theorem Re.matches_dot (s : Str) : Re.Matches Re.dot s ↔ ∃ c, c ≠ '\n' ∧ s = [c] := by
  constructor
  · intro h; cases h with
    | dot c hc => exact ⟨c, hc, rfl⟩
  · rintro ⟨c, hc, rfl⟩; exact Re.Matches.dot c hc

theorem Re.matches_cat (a b : Re) (s : Str) :
    Re.Matches (Re.cat a b) s ↔ ∃ x y, s = x ++ y ∧ Re.Matches a x ∧ Re.Matches b y := by
  constructor
  · intro h; cases h with
    | cat ha hb => exact ⟨_, _, rfl, ha, hb⟩
  · rintro ⟨x, y, rfl, ha, hb⟩; exact Re.Matches.cat ha hb

theorem Re.matches_alt (a b : Re) (s : Str) :
    Re.Matches (Re.alt a b) s ↔ Re.Matches a s ∨ Re.Matches b s := by
  constructor
  · intro h; cases h with
    | altL ha => exact Or.inl ha
    | altR hb => exact Or.inr hb
  · rintro (h | h)
    · exact Re.Matches.altL h
    · exact Re.Matches.altR h

theorem Re.matches_star (a : Re) (s : Str) :
    Re.Matches (Re.star a) s ↔
      s = [] ∨ ∃ x y, x ≠ [] ∧ s = x ++ y ∧ Re.Matches a x ∧ Re.Matches (Re.star a) y := by
  constructor
  · intro h
    generalize hr : Re.star a = r at h
    induction h with
    | eps => exact Or.inl rfl
    | lit c => cases hr
    | dot c hc => cases hr
    | cat _ _ _ _ => cases hr
    | altL _ _ => cases hr
    | altR _ _ => cases hr
    | starNil => exact Or.inl rfl
    | @starCons a' x y hx hy _ ih2 =>
      cases hr
      by_cases hnil : x = []
      · subst hnil
        simpa using ih2 rfl
      · exact Or.inr ⟨x, y, hnil, rfl, hx, hy⟩
  · rintro (h | ⟨x, y, _, rfl, hx, hy⟩)
    · subst h; exact Re.Matches.starNil
    · exact Re.Matches.starCons hx hy

theorem Re.nullable_iff (r : Re) : r.nullable = true ↔ Re.Matches r [] := by
  induction r with
  | empty => simp [Re.nullable, Re.matches_empty]
  | eps => simp [Re.nullable, Re.matches_eps]
  | lit c => simp [Re.nullable, Re.matches_lit]
  | dot => simp [Re.nullable, Re.matches_dot]
  | cat a b iha ihb =>
    simp only [Re.nullable, Bool.and_eq_true, iha, ihb, Re.matches_cat]
    constructor
    · rintro ⟨ha, hb⟩; exact ⟨[], [], rfl, ha, hb⟩
    · rintro ⟨x, y, hxy, ha, hb⟩
      have hx : x = [] := (List.append_eq_nil.1 hxy.symm).1
      have hy : y = [] := (List.append_eq_nil.1 hxy.symm).2
      subst hx; subst hy
      exact ⟨ha, hb⟩
  | alt a b iha ihb => simp only [Re.nullable, Bool.or_eq_true, iha, ihb, Re.matches_alt]
  | star a _ => simp [Re.nullable, Re.Matches.starNil]

theorem Re.deriv_iff (r : Re) (c : Char) (s : Str) :
    Re.Matches (r.deriv c) s ↔ Re.Matches r (c :: s) := by
  induction r generalizing s with
  | empty => simp [Re.deriv, Re.matches_empty]
  | eps => simp [Re.deriv, Re.matches_empty, Re.matches_eps]
  | lit d =>
    by_cases h : d = c
    · simp [Re.deriv, h, Re.matches_eps, Re.matches_lit]
    · have h' : ¬ c = d := fun e => h e.symm
      simp [Re.deriv, h, h', Re.matches_empty, Re.matches_lit]
  | dot =>
    by_cases h : c = '\n'
    · simp only [Re.deriv, h, if_true, Re.matches_dot]
      constructor
      · intro hm; exact absurd hm (Re.matches_empty s)
      · rintro ⟨d, hd, hs⟩
        simp only [List.cons.injEq] at hs
        exact absurd hs.1.symm hd
    · simp only [Re.deriv, h, if_false, Re.matches_eps, Re.matches_dot]
      constructor
      · rintro rfl; exact ⟨c, h, rfl⟩
      · rintro ⟨d, _, hs⟩
        simp only [List.cons.injEq] at hs
        exact hs.2
  | cat a b iha ihb =>
    have key : Re.Matches (Re.cat a b) (c :: s) ↔
        (Re.Matches a [] ∧ Re.Matches b (c :: s)) ∨
          ∃ x y, s = x ++ y ∧ Re.Matches a (c :: x) ∧ Re.Matches b y := by
      rw [Re.matches_cat]
      constructor
      · rintro ⟨x, y, hxy, ha, hb⟩
        cases x with
        | nil => left; simp at hxy; subst hxy; exact ⟨ha, hb⟩
        | cons d x' =>
          simp only [List.cons_append, List.cons.injEq] at hxy
          obtain ⟨rfl, rfl⟩ := hxy
          exact Or.inr ⟨x', y, rfl, ha, hb⟩
      · rintro (⟨ha, hb⟩ | ⟨x, y, rfl, ha, hb⟩)
        · exact ⟨[], c :: s, rfl, ha, hb⟩
        · exact ⟨c :: x, y, rfl, ha, hb⟩
    rw [key]
    by_cases hn : a.nullable = true
    · simp only [Re.deriv, hn, if_true, Re.matches_alt, Re.matches_cat, ihb, iha]
      have := (Re.nullable_iff a).1 hn
      constructor
      · rintro (h | h)
        · exact Or.inr h
        · exact Or.inl ⟨this, h⟩
      · rintro (⟨_, h⟩ | h)
        · exact Or.inr h
        · exact Or.inl h
    · simp only [Re.deriv, hn, Bool.false_eq_true, if_false, Re.matches_cat, iha]
      have hna : ¬ Re.Matches a [] := fun h => hn ((Re.nullable_iff a).2 h)
      constructor
      · intro h; exact Or.inr h
      · rintro (⟨h, _⟩ | h)
        · exact absurd h hna
        · exact h
  | alt a b iha ihb => simp only [Re.deriv, Re.matches_alt, iha, ihb]
  | star a iha =>
    simp only [Re.deriv, Re.matches_cat, iha]
    rw [Re.matches_star]
    constructor
    · rintro ⟨x, y, rfl, hx, hy⟩
      exact Or.inr ⟨c :: x, y, by simp, rfl, hx, hy⟩
    · rintro (h | ⟨x, y, hne, hxy, hx, hy⟩)
      · cases h
      · cases x with
        | nil => exact absurd rfl hne
        | cons d x' =>
          simp only [List.cons_append, List.cons.injEq] at hxy
          obtain ⟨rfl, rfl⟩ := hxy
          exact ⟨x', y, rfl, hx, hy⟩

theorem Re.matchAll_iff (r : Re) (s : Str) : r.matchAll s = true ↔ Re.Matches r s := by
  induction s generalizing r with
  | nil => simp [Re.matchAll, Re.nullable_iff]
  | cons c t ih => simp [Re.matchAll, ih, Re.deriv_iff]

theorem Re.matchPrefix_iff (r : Re) (s : Str) :
    r.matchPrefix s = true ↔ ∃ p, p <+: s ∧ Re.Matches r p := by
  induction s generalizing r with
  | nil =>
    simp only [Re.matchPrefix, Re.nullable_iff, List.prefix_nil]
    constructor
    · intro h; exact ⟨[], rfl, h⟩
    · rintro ⟨p, rfl, h⟩; exact h
  | cons c t ih =>
    simp only [Re.matchPrefix, Bool.or_eq_true, Re.nullable_iff, ih]
    constructor
    · rintro (h | ⟨p, hp, h⟩)
      · exact ⟨[], List.nil_prefix, h⟩
      · exact ⟨c :: p, (List.prefix_cons_inj c).2 hp, (Re.deriv_iff r c p).1 h⟩
    · rintro ⟨p, hp, h⟩
      cases p with
      | nil => exact Or.inl h
      | cons d p' =>
        have hd : d = c := (List.cons_prefix_cons.1 hp).1
        subst hd
        exact Or.inr ⟨p', (List.cons_prefix_cons.1 hp).2, (Re.deriv_iff r d p').2 h⟩

theorem Re.isMatch_iff (r : Re) (s : Str) :
    r.isMatch s = true ↔ ∃ p, p <:+: s ∧ Re.Matches r p := by
  induction s with
  | nil =>
    simp only [Re.isMatch, Re.nullable_iff]
    constructor
    · intro h; exact ⟨[], List.infix_refl _, h⟩
    · rintro ⟨p, hp, h⟩
      have : p = [] := List.eq_nil_of_infix_nil hp
      subst this; exact h
  | cons c t ih =>
    simp only [Re.isMatch, Bool.or_eq_true, Re.matchPrefix_iff, ih]
    constructor
    · rintro (⟨p, hp, h⟩ | ⟨p, hp, h⟩)
      · exact ⟨p, hp.isInfix, h⟩
      · exact ⟨p, List.infix_cons hp, h⟩
    · rintro ⟨p, hp, h⟩
      rcases List.infix_cons_iff.1 hp with hp | hp
      · exact Or.inl ⟨p, hp, h⟩
      · exact Or.inr ⟨p, hp, h⟩

theorem Re.matches_lits (h s : Str) : Re.Matches (Re.lits h) s ↔ s = h := by
  induction h generalizing s with
  | nil => simp [Re.lits, Re.matches_eps]
  | cons c t ih =>
    simp only [Re.lits, Re.matches_cat, Re.matches_lit, ih]
    constructor
    · rintro ⟨x, y, rfl, rfl, rfl⟩; rfl
    · rintro rfl; exact ⟨[c], t, rfl, rfl, rfl⟩

/-! ## Lemmas on the subdomain filter and on URLs -/

theorem subsFilter_isMatch (hostname : Str) (re : Re) (hre : subsFilter hostname = some re)
    (s : Str) :
    re.isMatch s = true ↔
      ('.' :: hostname) <:+: s ∨ ('/' :: '/' :: hostname) <:+: s := by
  unfold subsFilter quotedHost at hre
  split at hre
  · simp only [Option.map_some', Option.some.injEq] at hre
    subst hre
    rw [Re.isMatch_iff]
    constructor
    · rintro ⟨p, hp, hm⟩
      obtain ⟨x, r1, rfl, _, hm⟩ := (Re.matches_cat _ _ _).1 hm
      obtain ⟨y, r2, rfl, hy, hm⟩ := (Re.matches_cat _ _ _).1 hm
      obtain ⟨z, w, rfl, hz, _⟩ := (Re.matches_cat _ _ _).1 hm
      have hz' : z = hostname := (Re.matches_lits hostname z).1 hz
      subst hz'
      have hin : (y ++ z) <:+: s :=
        List.IsInfix.trans ⟨x, w, by simp⟩ hp
      rcases (Re.matches_alt _ _ _).1 hy with hy | hy
      · have := (Re.matches_lit _ _).1 hy
        subst this
        exact Or.inl hin
      · obtain ⟨a, b, rfl, ha, hb⟩ := (Re.matches_cat _ _ _).1 hy
        have h1 := (Re.matches_lit _ _).1 ha
        have h2 := (Re.matches_lit _ _).1 hb
        subst h1; subst h2
        exact Or.inr hin
    · have hopt : ∀ r : Re, Re.Matches (Re.opt r) [] := fun r => Re.Matches.altR Re.Matches.eps
      have hhost : Re.Matches (Re.cat (Re.lits hostname) (Re.opt (Re.cat
          (Re.alt (Re.lit '#') (Re.alt (Re.lit '/') (Re.lit '?'))) (Re.star Re.dot))))
          (hostname ++ []) :=
        Re.Matches.cat ((Re.matches_lits hostname hostname).2 rfl) (hopt _)
      rintro (h | h)
      · refine ⟨'.' :: hostname, h, ?_⟩
        have h1 := Re.Matches.cat (Re.Matches.altL (b := Re.cat (Re.lit '/') (Re.lit '/'))
          (Re.Matches.lit '.')) hhost
        have h2 := Re.Matches.cat (Re.Matches.starNil (a := Re.dot)) h1
        simpa using h2
      · refine ⟨'/' :: '/' :: hostname, h, ?_⟩
        have h0 : Re.Matches (Re.cat (Re.lit '/') (Re.lit '/')) (['/'] ++ ['/']) :=
          Re.Matches.cat (Re.Matches.lit '/') (Re.Matches.lit '/')
        have h1 := Re.Matches.cat (Re.Matches.altR (a := Re.lit '.') h0) hhost
        have h2 := Re.Matches.cat (Re.Matches.starNil (a := Re.dot)) h1
        simpa using h2
  · simp at hre

theorem splitHost_infix (hostPort : Str) : splitHost hostPort <:+: hostPort := by
  unfold splitHost
  simp only []
  have h1 : ∀ host : Str, host <:+: hostPort →
      (if (hasPrefix host ['['] && hasSuffix host [']']) = true then (host.drop 1).dropLast
        else host) <:+: hostPort := by
    intro host hh
    split
    · exact List.IsInfix.trans
        (List.IsInfix.trans (List.dropLast_prefix _).isInfix (List.drop_suffix _ _).isInfix) hh
    · exact hh
  apply h1
  split
  · exact (List.take_prefix _ _).isInfix
  · exact List.infix_refl _

theorem splitHost_prefix (hostPort : Str) (h : hostPort.head? ≠ some '[') :
    splitHost hostPort <+: hostPort := by
  unfold splitHost
  simp only []
  have h1 : ∀ host : Str, host <+: hostPort →
      (if (hasPrefix host ['['] && hasSuffix host [']']) = true then (host.drop 1).dropLast
        else host) <+: hostPort := by
    intro host hh
    have : hasPrefix host ['['] = false := by
      cases host with
      | nil => rfl
      | cons c t =>
        obtain ⟨r, hr⟩ := hh
        subst hr
        have hc : c ≠ '[' := fun e => h (by simp [e])
        have hc' : ¬ '[' = c := fun e => hc e.symm
        simp [hasPrefix, List.isPrefixOf, hc']
    simp [this, hh]
  apply h1
  split
  · exact List.take_prefix _ _
  · exact List.prefix_refl _

theorem splitHost_nil : splitHost [] = [] := by decide

theorem infix_ite (t a b : Str) (c : Prop) [Decidable c] (h : t <:+: b) (hab : b <+: a) :
    t <:+: (if c then a else b) := by
  split
  · exact List.IsInfix.trans h hab.isInfix
  · exact h

theorem URL.String_infix (u : URL) (hh : u.Host ≠ []) :
    (['/', '/'] ++ (match u.User with | some ui => ui ++ ['@'] | none => []) ++ u.Host)
      <:+: u.String := by
  unfold URL.String
  simp only []
  refine infix_ite _ _ _ _ ?_ (by simp [List.append_assoc])
  refine infix_ite _ _ _ _ ?_ (by simp [List.append_assoc])
  refine List.IsInfix.trans ?_ (List.prefix_append _ _).isInfix
  refine infix_ite _ _ _ _ ?_ (by simp [List.append_assoc])
  refine infix_ite _ _ _ _ ?_ (by simp [List.append_assoc])
  simp only [ne_eq, hh, not_false_eq_true, or_true, true_or, if_true]
  cases u.User with
  | none => exact ⟨if u.Scheme ≠ [] then u.Scheme ++ [':'] else [], [], by simp⟩
  | some ui => exact ⟨if u.Scheme ≠ [] then u.Scheme ++ [':'] else [], [], by simp⟩

/-- What the filter check of subdomain mode does as the code stands: the
collector of a seed with host `hostname` has no allow-list, and its filter
check passes every candidate URL
whose host ends with `.` + `hostname`, passes every candidate URL whose host
equals the non-empty `hostname` when the URL has no user information and its
host is not a bracketed IP literal, and passes only URLs whose string form
contains `.` + `hostname` or `//` + `hostname`. -/
theorem subs_mode_scope (hostname : Str) (headers : Option Headers) (c : Collector)
    (hc : sessionCollector true hostname headers = some c) (u : URL) :
    c.AllowedDomains = none ∧
    (('.' :: hostname) <:+ u.Hostname → c.allows u = true) ∧
    (u.Hostname = hostname → hostname ≠ [] → u.User = none → u.Host.head? ≠ some '[' →
      c.allows u = true) ∧
    (c.allows u = true →
      ('.' :: hostname) <:+: u.String ∨ ('/' :: '/' :: hostname) <:+: u.String) := by
  simp only [sessionCollector, if_true, Option.map_eq_some'] at hc
  obtain ⟨re, hre, rfl⟩ := hc
  have hallow : ∀ v : URL,
      ({ AllowedDomains := none, URLFilters := [re] } : Collector).allows v = re.isMatch v.String := by
    intro v
    simp [Collector.allows, Collector.checkFilters, Collector.isDomainAllowed, isMatchingFilter]
  have hhost : u.Hostname ≠ [] → u.Host ≠ [] := by
    intro h1 h2
    apply h1
    simp [URL.Hostname, h2, splitHost_nil]
  refine ⟨rfl, ?_, ?_, ?_⟩
  · intro hs
    rw [hallow, subsFilter_isMatch hostname re hre]
    left
    have hne : u.Hostname ≠ [] := by
      intro e
      rw [e] at hs
      exact absurd (List.eq_nil_of_suffix_nil hs) (by simp)
    have h1 : u.Hostname <:+: u.Host := splitHost_infix u.Host
    have h2 : u.Host <:+: u.String :=
      List.IsInfix.trans (List.suffix_append _ _).isInfix (URL.String_infix u (hhost hne))
    exact List.IsInfix.trans hs.isInfix (List.IsInfix.trans h1 h2)
  · intro he hne hu hb
    rw [hallow, subsFilter_isMatch hostname re hre]
    right
    have hH : u.Host ≠ [] := hhost (he ▸ hne)
    have h1 := URL.String_infix u hH
    rw [hu] at h1
    simp only [List.append_nil] at h1
    obtain ⟨r, hr⟩ := splitHost_prefix u.Host hb
    have h2 : ('/' :: '/' :: hostname) <:+: (['/', '/'] ++ u.Host) := by
      refine ⟨[], r, ?_⟩
      rw [← hr, ← he]
      simp [URL.Hostname]
    exact List.IsInfix.trans h2 h1
  · intro ha
    rw [hallow, subsFilter_isMatch hostname re hre] at ha
    exact ha

/-- For the seed host `example.com`: a URL with the host
`a.b.example.com` and the URL `http://example.com/` pass the filter check,
and the URL `http://evilexample.com/` does not. -/
theorem subs_mode_scope_witness :
    ∃ c : Collector, sessionCollector true "example.com".toList none = some c ∧
      c.allows (rootURL "a.b.example.com".toList) = true ∧
      c.allows (rootURL "example.com".toList) = true ∧
      c.allows (rootURL "evilexample.com".toList) = false := by
  cases h : sessionCollector true "example.com".toList none with
  | none => exact absurd h (by decide)
  | some c =>
    refine ⟨c, rfl, ?_, ?_, ?_⟩
    · exact (subs_mode_scope _ _ c h (rootURL "a.b.example.com".toList)).2.1 (by decide)
    · exact (subs_mode_scope _ _ c h (rootURL "example.com".toList)).2.2.1
        (by decide) (by decide) (by decide) (by decide)
    · cases hb : c.allows (rootURL "evilexample.com".toList) with
      | false => rfl
      | true =>
        exact absurd ((subs_mode_scope _ _ c h (rootURL "evilexample.com".toList)).2.2.2 hb)
          (by decide)

/-! ## Header parsing -/

/-- C7 (evaluation at the failing input): the header flag value
`Cookie: foo=bar;;` is non-empty and contains a colon, yet `parseHeaders`
does not return nil on it: the segment after the trailing separator has no
colon, and reading `parts[1]` of it is an index-out-of-range panic. -/
theorem parseHeaders_trailing_separator_panics :
    "Cookie: foo=bar;;".toList ≠ [] ∧
    strContains "Cookie: foo=bar;;".toList [':'] = true ∧
    parseHeaders "Cookie: foo=bar;;".toList = ParseResult.indexOutOfRange := by
  decide

/-- C10: when `rawHeaders` is non-empty and every `;;`-separated segment has
a colon, `parseHeaders` returns nil and leaves a header map in which a key
`k` is bound exactly when some segment has the trimmed text before its first
colon equal to `k`, and is then bound to the trimmed text after the first
colon of the last such segment. -/
theorem parseHeaders_segments (rawHeaders : Str) (hne : rawHeaders ≠ [])
    (hcolon : ∀ seg ∈ splitSemis rawHeaders, ':' ∈ seg) :
    ∃ m : Headers, parseHeaders rawHeaders = ParseResult.ok (some m) ∧
      ∀ k : Str, m.get k =
        ((splitSemis rawHeaders).reverse.find? (fun seg => headerName seg == k)).map
          headerValue := by
  obtain ⟨seg, hseg⟩ := List.exists_mem_of_ne_nil _ (splitSemis_ne_nil rawHeaders)
  have hc : ':' ∈ rawHeaders := mem_of_mem_splitSemis rawHeaders seg hseg ':' (hcolon seg hseg)
  have h1 := (strContains_singleton rawHeaders ':').2 hc
  refine ⟨(splitSemis rawHeaders).foldl
    (fun m seg => m.set (headerName seg) (headerValue seg)) [], ?_, ?_⟩
  · unfold parseHeaders
    simp only [ne_eq, hne, not_false_eq_true, if_true, h1, Bool.not_true,
      parseLoop_of_colons _ _ hcolon]
    rfl
  · intro k
    rw [get_foldl_set]
    cases (splitSemis rawHeaders).reverse.find? (fun seg => headerName seg == k) <;>
      simp [Headers.get]

/-- C10 at the example of the flag's help text: the two headers are bound to
their values and no other key is bound. -/
theorem parseHeaders_segments_witness :
    ∃ m : Headers,
      parseHeaders "Cookie: foo=bar;;Referer: http://example.com/".toList =
        ParseResult.ok (some m) ∧
      m.get "Cookie".toList = some "foo=bar".toList ∧
      m.get "Referer".toList = some "http://example.com/".toList ∧
      ∀ k : Str, k ≠ "Cookie".toList → k ≠ "Referer".toList → m.get k = none := by
  obtain ⟨m, h1, h2⟩ :=
    parseHeaders_segments "Cookie: foo=bar;;Referer: http://example.com/".toList
      (by decide) (by decide)
  refine ⟨m, h1, ?_, ?_, ?_⟩
  · rw [h2]; decide
  · rw [h2]; decide
  · intro k hk1 hk2
    rw [h2]
    have hs : (splitSemis "Cookie: foo=bar;;Referer: http://example.com/".toList).reverse =
        ["Referer: http://example.com/".toList, "Cookie: foo=bar".toList] := by decide
    have hn1 : headerName "Referer: http://example.com/".toList = "Referer".toList := by decide
    have hn2 : headerName "Cookie: foo=bar".toList = "Cookie".toList := by decide
    have e1 : ("Referer".toList == k) = false := beq_false_of_ne (fun e => hk2 e.symm)
    have e2 : ("Cookie".toList == k) = false := beq_false_of_ne (fun e => hk1 e.symm)
    rw [hs]
    simp only [List.find?_cons, hn1, hn2, List.find?_nil, e1, e2, Option.map_none']

/-! ## Result lines -/

/-- C8: with a non-nil element and plain (non-JSON) output, `printResult`
pushes nothing when the resolved URL is empty, and otherwise pushes exactly
one string: the resolved URL, then ` [source: <kind>]` exactly when
`showSource` is set, then ` [from: <origin page URL>]` exactly when
`showWhere` is set. -/
theorem printResult_plain (link sourceName : Str) (showSource showWhere : Bool)
    (marshal : Result → Option Str) (e : HTMLElement) :
    printResult link sourceName showSource showWhere false marshal (some e) =
      if e.absoluteURL link = [] then []
      else [e.absoluteURL link
              ++ (if showSource then " [source: ".toList ++ sourceName ++ "]".toList else [])
              ++ (if showWhere then " [from: ".toList ++ e.requestURL ++ "]".toList else [])] := by
  unfold printResult
  by_cases h : e.absoluteURL link = []
  · simp [h]
  · cases showSource <;> cases showWhere <;> simp [h]

/-! ## Deduplication -/

/-- C2: in a sequence of calls of `isUnique` that starts from the empty map,
the i-th call returns true exactly when its argument is not the argument of
an earlier call, so that for every string that is called with exactly one
call returns true; and with `-u` the consumer writes every distinct result
line once, in the order of the first occurrences. -/
theorem isUnique_first_occurrence (calls : List Str) :
    (∀ (i : Nat) (x : Str), calls[i]? = some x →
      (isUniqueCalls [] calls)[i]? = some (decide (x ∉ calls.take i))) ∧
    (∀ x ∈ calls, (calls.zip (isUniqueCalls [] calls)).count (x, true) = 1) ∧
    (consumer true calls).Nodup ∧
    (∀ x, x ∈ consumer true calls ↔ x ∈ calls) ∧
    (consumer true calls).Pairwise (fun a b => calls.indexOf a < calls.indexOf b) := by
  have hc : consumer true calls = uniqueLoop [] calls := by simp [consumer]
  refine ⟨?_, ?_, ?_, ?_, ?_⟩
  · intro i x h
    rw [isUniqueCalls_get [] calls i x h]
    simp
  · intro x hx
    rw [count_isUniqueCalls]
    simp [hx]
  · rw [hc]; exact nodup_uniqueLoop _ _
  · intro x
    rw [hc, mem_uniqueLoop]
    simp
  · rw [hc]; exact order_uniqueLoop _ _

/-- C2 on the calls `a`, `b`, `a`: the third call returns false, and the
consumer writes `a` and `b`. -/
theorem isUnique_first_occurrence_witness :
    (isUniqueCalls [] ["a".toList, "b".toList, "a".toList])[2]? = some false ∧
    consumer true ["a".toList, "b".toList, "a".toList] = ["a".toList, "b".toList] := by
  refine ⟨?_, by decide⟩
  rw [(isUnique_first_occurrence ["a".toList, "b".toList, "a".toList]).1 2 "a".toList
    (by decide)]
  decide

/-! ## Scope -/

/-- C1 (evaluation at the failing inputs): in subdomain mode with the seed
host `example.com`, the filter check passes the candidate URLs
`http://evil.com/?next=//example.com` and `http://example.com.evil.com/`,
although their hosts, `evil.com` and `example.com.evil.com`, neither equal
`example.com` nor end with `.example.com`. -/
theorem subs_filter_accepts_foreign_host :
    (sessionCollector true "example.com".toList none).map
      (fun c => c.allows redirectorURL) = some true ∧
    redirectorURL.Hostname = "evil.com".toList ∧
    redirectorURL.Hostname ≠ "example.com".toList ∧
    hasSuffix redirectorURL.Hostname ".example.com".toList = false ∧
    (sessionCollector true "example.com".toList none).map
      (fun c => c.allows (rootURL "example.com.evil.com".toList)) = some true ∧
    (rootURL "example.com.evil.com".toList).Hostname = "example.com.evil.com".toList ∧
    (rootURL "example.com.evil.com".toList).Hostname ≠ "example.com".toList ∧
    hasSuffix (rootURL "example.com.evil.com".toList).Hostname ".example.com".toList =
      false := by
  decide

/-- C3: without `-subs`, the collector of a seed with host `hostname` has no
URL filter and the allow-list `[hostname]`, or `[hostname, headers["Host"]]`
when a `Host` header is configured; so its filter check passes a request
exactly when the request's host is `hostname` or is the configured `Host`
header. -/
theorem exact_mode_scope (hostname : Str) (headers : Option Headers) :
    ∃ c : Collector, sessionCollector false hostname headers = some c ∧
      c.URLFilters = [] ∧
      c.AllowedDomains = some
        (match headers.bind (fun m => m.get "Host".toList) with
          | none => [hostname]
          | some val => [hostname, val]) ∧
      ∀ url d : Str, c.checkFilters url d = true ↔
        (d = hostname ∨ headers.bind (fun m => m.get "Host".toList) = some d) := by
  refine ⟨_, rfl, rfl, ?_, ?_⟩
  · cases headers with
    | none => rfl
    | some m =>
      simp only [allowedDomains, Option.bind]
      cases m.get "Host".toList <;> rfl
  · intro url d
    cases headers with
    | none =>
      show ({ AllowedDomains := some [hostname], URLFilters := [] } : Collector).checkFilters
        url d = true ↔ _
      rw [checkFilters_allowList _ (by simp)]
      simp
    | some m =>
      simp only [allowedDomains, Option.bind]
      cases m.get "Host".toList with
      | none =>
        show ({ AllowedDomains := some [hostname], URLFilters := [] } : Collector).checkFilters
          url d = true ↔ _
        rw [checkFilters_allowList _ (by simp)]
        simp
      | some val =>
        show ({ AllowedDomains := some [hostname, val], URLFilters := [] } :
          Collector).checkFilters url d = true ↔ _
        rw [checkFilters_allowList _ (by simp)]
        simp only [List.mem_cons, List.mem_singleton, List.not_mem_nil, or_false,
          Option.some.injEq]
        constructor
        · rintro (h | h)
          · exact Or.inl h
          · exact Or.inr h.symm
        · rintro (h | h)
          · exact Or.inl h
          · exact Or.inr h.symm

/-! ## Callbacks -/

/-- C4 (counterexample): with inside-only enabled and the seed line
`http://example.com/blog`, the anchor to `http://example.com/other`, whose
href resolves to that non-empty absolute URL, produces no record and no
visit. -/
theorem onAnchor_inside_drops_record :
    otherAnchor.absoluteURL (otherAnchor.attr "href".toList) =
      "http://example.com/other".toList ∧
    onAnchor true false false false "http://example.com/blog".toList (fun _ => none)
      otherAnchor = { pushed := [], visited := [] } := by
  decide

/-- C4 (amended): for an anchor whose href resolves to a non-empty absolute
URL, the `a[href]` callback pushes one `href` record (the one `printResult`
makes) and visits the link when inside-only is disabled or the resolved URL
contains the seed line; when inside-only is enabled and the resolved URL
does not contain the seed line, it pushes nothing and visits nothing. -/
theorem onAnchor_record_with_visit (inside showSource showWhere showJson : Bool)
    (urlText : Str) (marshal : Result → Option Str) (e : HTMLElement)
    (hres : e.absoluteURL (e.attr "href".toList) ≠ []) (hm : ∀ r, marshal r ≠ none) :
    ((inside = false ∨ urlText <:+: e.absoluteURL (e.attr "href".toList)) →
      (onAnchor inside showSource showWhere showJson urlText marshal e).pushed =
          printResult (e.attr "href".toList) "href".toList showSource showWhere showJson
            marshal (some e) ∧
        (onAnchor inside showSource showWhere showJson urlText marshal e).pushed.length = 1 ∧
        (onAnchor inside showSource showWhere showJson urlText marshal e).visited =
          [e.attr "href".toList]) ∧
    ((inside = true ∧ ¬ urlText <:+: e.absoluteURL (e.attr "href".toList)) →
      onAnchor inside showSource showWhere showJson urlText marshal e =
        { pushed := [], visited := [] }) := by
  constructor
  · intro h
    have hg : (strContains (e.absoluteURL (e.attr "href".toList)) urlText || !inside) = true := by
      rcases h with h | h
      · simp [h]
      · rw [(strContains_iff _ _).2 h, Bool.true_or]
    simp only [onAnchor, hg, if_true, true_and]
    exact ⟨printResult_length _ _ _ _ _ _ _ hres hm, trivial⟩
  · rintro ⟨h1, h2⟩
    have hg : (strContains (e.absoluteURL (e.attr "href".toList)) urlText || !inside) = false := by
      have : strContains (e.absoluteURL (e.attr "href".toList)) urlText = false := by
        cases hs : strContains (e.absoluteURL (e.attr "href".toList)) urlText with
        | false => rfl
        | true => exact absurd ((strContains_iff _ _).1 hs) h2
      rw [this, h1]; rfl
    simp only [onAnchor, hg, Bool.false_eq_true, if_false]

/-- C4 (amended) on the anchors of the page `http://example.com/blog`: with
inside-only disabled the anchor to `http://example.com/other` gives the one
record `http://example.com/other` and a visit. -/
theorem onAnchor_record_with_visit_witness :
    (onAnchor false false false false "http://example.com/blog".toList
        (fun r => some r.URL) otherAnchor).pushed = ["http://example.com/other".toList] ∧
    (onAnchor false false false false "http://example.com/blog".toList
        (fun r => some r.URL) otherAnchor).visited = ["http://example.com/other".toList] := by
  have h := (onAnchor_record_with_visit false false false false
    "http://example.com/blog".toList (fun r => some r.URL) otherAnchor (by decide)
    (by intro r; simp)).1 (Or.inl rfl)
  exact ⟨h.1.trans (by decide), h.2.2.trans (by decide)⟩

/-- C5 (evaluation at the failing input): with JS crawling enabled, the
response for `http://example.com/app.js` has a path that ends in `.js` and a
body in which the URL pattern finds `http://example.com/api`, and the
response callback pushes nothing, whatever the output options: the two calls
of `printResult` pass a nil element. -/
theorem onResponse_js_file_not_pushed (showSource showWhere showJson : Bool)
    (marshal : Result → Option Str) :
    hasSuffix appJsResponse.path ".js".toList = true ∧
    findAllURLs appJsResponse.body = ["http://example.com/api".toList] ∧
    onResponse true showSource showWhere showJson marshal appJsResponse = [] :=
  ⟨by decide, by decide, onResponse_nil _ _ _ _ _ _⟩

/-! ## Seeds -/

/-- C6 (evaluation at the failing input): the seed line `example.com` is
skipped by the seed loop at `extractHostname`, with no probe made, whatever
the probes would have answered. -/
theorem processSeed_bare_host_skipped (parseRest : Str → Str → Str → Option Str)
    (get : Str → Bool) :
    processSeed parseRest get "example.com".toList = ([], SeedOutcome.parseError) :=
  processSeed_no_scheme parseRest get "example.com".toList "example.com".toList (by decide)

end Wraith
